import Mathlib

/-!
Verification of the Kokoro-Web streaming TTS front-end.

Shallow embedding of:
* `semantic-split.js` (`splitTextSmart`, `splitLongSentence`) over `List Char`,
  with JavaScript `String.prototype.split` regex semantics modelled by
  explicit scanners;
* the worker's bounded audio queue counter (`bufferQueueSize`,
  `MAX_QUEUE_SIZE`, `buffer_processed`, `stop`) as labelled transition
  systems;
* the chunk-retry job loop of the "minimal fix" worker revision
  (`processedChunks`, terminal `complete` / `error` message);
* `AudioDiskSaver.js` (`getRealSpeed`, `writeWavHeader`, `addAudioChunk`,
  `updateWavHeader`) with the 44-byte WAV header as a byte map.
-/

namespace Chunker

/-- JavaScript `\s` character class restricted to the characters that occur in
this development (ASCII whitespace plus NBSP); used by the regex models and by
the `trim` model. -/
def jsWS (c : Char) : Bool :=
  c == ' ' || c == '\t' || c == '\n' || c == '\r' || c == '\x0b' ||
    c == '\x0c' || c == ' '

/-- JavaScript `String.prototype.trim`: strip whitespace from both ends. -/
def trimL (l : List Char) : List Char :=
  ((l.dropWhile jsWS).reverse.dropWhile jsWS).reverse

/-- Length of the maximal whitespace prefix (`\s*`, greedy). -/
def wsPrefixLen (l : List Char) : Nat :=
  (l.takeWhile jsWS).length

/-- Index of the last `'\n'` inside the maximal whitespace prefix of `l`
(`none` if there is no such newline).  This is the greedy backtracking
behaviour of `\s*` followed by a mandatory `\n`. -/
def lastNlInWsRun : List Char → Option Nat
  | [] => none
  | c :: rest =>
    if jsWS c then
      match lastNlInWsRun rest with
      | some j => some (j + 1)
      | none => if c = '\n' then some 0 else none
    else none

/-- Matcher for the paragraph separator regex `/\n\s*\n/` at the head of the
list: returns the length of the (greedy) match, if any. -/
def mPara : List Char → Option Nat
  | [] => none
  | c :: t =>
    if c = '\n' then (lastNlInWsRun t).map (· + 2) else none

/-- Matcher for `/,\s*/` at the head of the list. -/
def mComma : List Char → Option Nat
  | [] => none
  | c :: t => if c = ',' then some (1 + wsPrefixLen t) else none

/-- Matcher for `/\s+/` at the head of the list. -/
def mWsPlus : List Char → Option Nat
  | [] => none
  | c :: t => if jsWS c then some (1 + wsPrefixLen t) else none

/-- JavaScript `String.prototype.split(regex)`: scan left to right, at each
position try the matcher; on a match cut the accumulated piece and continue
after the match.  `fuel` bounds the recursion; `s.length` is always enough
fuel because every step consumes at least one character. -/
def splitByFuel (m : List Char → Option Nat) :
    Nat → List Char → List Char → List (List Char)
  | 0, _, acc => [acc.reverse]
  | _ + 1, [], acc => [acc.reverse]
  | fuel + 1, c :: rest, acc =>
    match m (c :: rest) with
    | some k =>
        if 1 ≤ k then
          acc.reverse :: splitByFuel m fuel (List.drop k (c :: rest)) []
        else splitByFuel m fuel rest (c :: acc)
    | none => splitByFuel m fuel rest (c :: acc)

/-- `s.split(regex)` (note: the empty string splits to `[""]`, as in JS). -/
def splitBy (m : List Char → Option Nat) (s : List Char) : List (List Char) :=
  splitByFuel m s.length s []

/-- Is there a sentence boundary here?  Models the zero-width regex
`/(?<=[.?!])(?=\s+["'a-zA-Z])/`: the previous character was `.?!` (checked by
the caller) and the list starts with one or more whitespace characters
followed by a quote or letter. -/
def isSentPunct (c : Char) : Bool := c == '.' || c == '?' || c == '!'

def isSentNext (c : Char) : Bool :=
  c == '"' || c == '\'' || ('a' ≤ c && c ≤ 'z') || ('A' ≤ c && c ≤ 'Z')

def sentLookahead (l : List Char) : Bool :=
  let m := wsPrefixLen l
  decide (1 ≤ m) &&
    (match l.drop m with
     | c :: _ => isSentNext c
     | [] => false)

/-- Split on the zero-width sentence-boundary regex (no characters are
consumed by the separator). -/
def sentSplitAux : List Char → List Char → List (List Char)
  | [], acc => [acc.reverse]
  | c :: rest, acc =>
    if isSentPunct c && sentLookahead rest then
      (c :: acc).reverse :: sentSplitAux rest []
    else sentSplitAux rest (c :: acc)

def sentSplit (s : List Char) : List (List Char) := sentSplitAux s []

/-- `if (chunk) finalChunks.push(chunk.trim())` (JS truthiness: push only a
non-empty chunk, trimmed). -/
def pushChunk (chunks : List (List Char)) (chunk : List Char) :
    List (List Char) :=
  if chunk.isEmpty then chunks else chunks ++ [trimL chunk]

/-- The space-separated greedy accumulation loop, used twice in the source:
for words inside `splitLongSentence` and for sub-chunks inside
`splitTextSmart`.  State is `(chunks, current)`:
`if ((current + ' ' + item).length > maxLen) { push current; current = item }
 else current += (current ? ' ' : '') + item`. -/
def spaceAccumLoop (maxLen : Nat) :
    List (List Char) → List (List Char) × List Char →
    List (List Char) × List Char
  | [], st => st
  | w :: ws, (chunks, cur) =>
    if maxLen < (cur ++ ' ' :: w).length then
      spaceAccumLoop maxLen ws (pushChunk chunks cur, w)
    else
      spaceAccumLoop maxLen ws (chunks, if cur.isEmpty then w else cur ++ ' ' :: w)

/-- The comma loop of `splitLongSentence`, over `sentence.split(/,\s*/)`. -/
def commaLoop (maxLen : Nat) :
    List (List Char) → List (List Char) × List Char →
    List (List Char) × List Char
  | [], st => st
  | part :: parts, (chunks, cur) =>
    if maxLen < (cur ++ ',' :: ' ' :: part).length then
      let chunks1 := pushChunk chunks cur
      if maxLen < part.length then
        let st2 := spaceAccumLoop maxLen (splitBy mWsPlus part) (chunks1, [])
        commaLoop maxLen parts (pushChunk st2.1 st2.2, [])
      else commaLoop maxLen parts (chunks1, part)
    else
      commaLoop maxLen parts
        (chunks, if cur.isEmpty then part else cur ++ ',' :: ' ' :: part)

/-- `splitLongSentence(sentence, maxLen)` from `semantic-split.js`:
comma → word fallback split of an over-long sentence. -/
def splitLongSentence (sentence : List Char) (maxLen : Nat) :
    List (List Char) :=
  let st := commaLoop maxLen (splitBy mComma sentence) ([], [])
  pushChunk st.1 st.2

/-- The per-sentence loop of `splitTextSmart` (state `(finalChunks, chunk)`). -/
def sentenceLoop (maxLen : Nat) :
    List (List Char) → List (List Char) × List Char →
    List (List Char) × List Char
  | [], st => st
  | s0 :: ss, (chunks, chunk) =>
    let s := trimL s0
    if maxLen < s.length then
      sentenceLoop maxLen ss
        (spaceAccumLoop maxLen (splitLongSentence s maxLen) (chunks, chunk))
    else if maxLen < (chunk ++ ' ' :: s).length then
      sentenceLoop maxLen ss (pushChunk chunks chunk, s)
    else
      sentenceLoop maxLen ss
        (chunks, if chunk.isEmpty then s else chunk ++ ' ' :: s)

/-- The per-paragraph loop of `splitTextSmart`. -/
def paraLoop (maxLen : Nat) :
    List (List Char) → List (List Char) → List (List Char)
  | [], finalChunks => finalChunks
  | para :: ps, finalChunks =>
    if para.length ≤ maxLen then
      paraLoop maxLen ps (finalChunks ++ [trimL para])
    else
      let st := sentenceLoop maxLen (sentSplit para) (finalChunks, [])
      paraLoop maxLen ps (pushChunk st.1 st.2)

/-- `splitTextSmart(text, maxChunkLength)` from `semantic-split.js`:
paragraph → sentence → comma → word chunking. -/
def splitTextSmart (text : List Char) (maxLen : Nat) : List (List Char) :=
  paraLoop maxLen (splitBy mPara text) []

/-- "Keep" predicate for the content-preservation theorem: characters that
are neither whitespace nor a comma. -/
def keepB (c : Char) : Bool := !jsWS c && !(c == ',')

/-- Characters of a maximal whitespace prefix are whitespace. -/
theorem mem_takeWhile_ws {l : List Char} {c : Char}
    (h : c ∈ l.takeWhile jsWS) : jsWS c = true := by
  induction l with
  | nil => simp [List.takeWhile] at h
  | cons a rest ih =>
    rw [List.takeWhile] at h
    cases hws : jsWS a with
    | false => simp [hws] at h
    | true =>
      simp only [hws, List.mem_cons] at h
      rcases h with rfl | h
      · exact hws
      · exact ih h

/-- `take` of the whitespace-prefix length is the whitespace prefix. -/
theorem take_wsPrefixLen (t : List Char) :
    t.take (wsPrefixLen t) = t.takeWhile jsWS :=
  ((List.prefix_iff_eq_take).mp (List.takeWhile_prefix jsWS)).symm

/-- The characters consumed by a `/\n\s*\n/` match are all whitespace. -/
theorem lastNlInWsRun_take {t : List Char} {j : Nat}
    (h : lastNlInWsRun t = some j) :
    ∀ c ∈ t.take (j + 1), jsWS c = true := by
  induction t generalizing j with
  | nil => simp [lastNlInWsRun] at h
  | cons a rest ih =>
    rw [lastNlInWsRun] at h
    cases hws : jsWS a with
    | false => simp [hws] at h
    | true =>
      simp only [hws, if_true] at h
      cases hrec : lastNlInWsRun rest with
      | some j0 =>
        rw [hrec] at h
        simp only [Option.some.injEq] at h
        subst h
        intro c hc
        rw [List.take_succ_cons] at hc
        rcases List.mem_cons.mp hc with rfl | hc
        · exact hws
        · exact ih hrec c hc
      | none =>
        rw [hrec] at h
        by_cases hnl : a = '\n'
        · simp only [hnl, if_true, Option.some.injEq] at h
          subst h
          intro c hc
          simp only [List.take_succ_cons, List.take_zero] at hc
          rcases List.mem_cons.mp hc with rfl | hc
          · exact hws
          · simp at hc
        · simp [hnl] at h

theorem mPara_consumed {l : List Char} {k : Nat} (h : mPara l = some k) :
    ∀ c ∈ l.take k, jsWS c = true := by
  cases l with
  | nil => simp [mPara] at h
  | cons c t =>
    rw [mPara] at h
    by_cases hc : c = '\n'
    · rw [if_pos hc] at h
      cases hrec : lastNlInWsRun t with
      | none => rw [hrec] at h; simp at h
      | some j =>
        rw [hrec] at h
        simp only [Option.map_some', Option.some.injEq] at h
        subst h
        intro x hx
        rw [show j + 2 = (j + 1) + 1 by omega, List.take_succ_cons] at hx
        rcases List.mem_cons.mp hx with rfl | hx
        · subst hc; decide
        · exact lastNlInWsRun_take hrec x hx
    · simp [hc] at h

theorem mPara_pos {l : List Char} {k : Nat} (h : mPara l = some k) : 1 ≤ k := by
  cases l with
  | nil => simp [mPara] at h
  | cons c t =>
    rw [mPara] at h
    by_cases hc : c = '\n'
    · rw [if_pos hc] at h
      cases hrec : lastNlInWsRun t with
      | none => rw [hrec] at h; simp at h
      | some j =>
        rw [hrec] at h
        simp only [Option.map_some', Option.some.injEq] at h
        omega
    · simp [hc] at h

theorem mComma_consumed {l : List Char} {k : Nat} (h : mComma l = some k) :
    ∀ c ∈ l.take k, (jsWS c || c == ',') = true := by
  cases l with
  | nil => simp [mComma] at h
  | cons c t =>
    rw [mComma] at h
    by_cases hc : c = ','
    · simp only [hc, if_true, Option.some.injEq] at h
      subst h
      intro x hx
      rw [Nat.add_comm 1 (wsPrefixLen t), List.take_succ_cons] at hx
      rcases List.mem_cons.mp hx with rfl | hx
      · subst hc; decide
      · rw [take_wsPrefixLen] at hx
        simp [mem_takeWhile_ws hx]
    · simp [hc] at h

theorem mComma_pos {l : List Char} {k : Nat} (h : mComma l = some k) :
    1 ≤ k := by
  cases l with
  | nil => simp [mComma] at h
  | cons c t =>
    rw [mComma] at h
    by_cases hc : c = ','
    · simp only [hc, if_true, Option.some.injEq] at h; omega
    · simp [hc] at h

theorem mWsPlus_consumed {l : List Char} {k : Nat} (h : mWsPlus l = some k) :
    ∀ c ∈ l.take k, jsWS c = true := by
  cases l with
  | nil => simp [mWsPlus] at h
  | cons c t =>
    rw [mWsPlus] at h
    cases hws : jsWS c with
    | false => simp [hws] at h
    | true =>
      simp only [hws, if_true, Option.some.injEq] at h
      subst h
      intro x hx
      rw [Nat.add_comm 1 (wsPrefixLen t), List.take_succ_cons] at hx
      rcases List.mem_cons.mp hx with rfl | hx
      · exact hws
      · rw [take_wsPrefixLen] at hx
        exact mem_takeWhile_ws hx

theorem mWsPlus_pos {l : List Char} {k : Nat} (h : mWsPlus l = some k) :
    1 ≤ k := by
  cases l with
  | nil => simp [mWsPlus] at h
  | cons c t =>
    rw [mWsPlus] at h
    cases hws : jsWS c with
    | false => simp [hws] at h
    | true => simp only [hws, if_true, Option.some.injEq] at h; omega

theorem mWsPlus_none {c : Char} {t : List Char} (h : mWsPlus (c :: t) = none) :
    jsWS c = false := by
  rw [mWsPlus] at h
  cases hws : jsWS c with
  | false => rfl
  | true => simp [hws] at h

/-- Splitting never loses characters that the separator regex cannot consume:
if every consumed character fails `p`, then the `p`-filtered content of the
concatenated pieces is the `p`-filtered input. -/
theorem splitByFuel_flatten_filter (p : Char → Bool)
    (m : List Char → Option Nat)
    (hm : ∀ l k, m l = some k → ∀ c ∈ l.take k, p c = false) :
    ∀ (fuel : Nat) (s acc : List Char), s.length ≤ fuel →
      ((splitByFuel m fuel s acc).flatten).filter p
        = acc.reverse.filter p ++ s.filter p := by
  intro fuel
  induction fuel with
  | zero =>
    intro s acc h
    have hs : s = [] := List.length_eq_zero.mp (Nat.le_zero.mp h)
    subst hs
    simp [splitByFuel]
  | succ n ih =>
    intro s acc h
    cases s with
    | nil => simp [splitByFuel]
    | cons c rest =>
      rw [splitByFuel]
      cases hmc : m (c :: rest) with
      | none =>
        rw [ih rest (c :: acc) (by simp only [List.length_cons] at h; omega)]
        simp [List.filter_append, List.filter_cons]
        cases hp : p c <;> simp [hp]
      | some k =>
        by_cases hk : 1 ≤ k
        · simp only [hk, if_true]
          have hlen : (List.drop k (c :: rest)).length ≤ n := by
            rw [List.length_drop]
            simp only [List.length_cons] at h ⊢
            omega
          rw [List.flatten_cons, List.filter_append, ih _ [] hlen]
          have hsplit : (c :: rest).filter p
              = ((c :: rest).take k).filter p ++ ((c :: rest).drop k).filter p := by
            rw [← List.filter_append, List.take_append_drop]
          have htake : ((c :: rest).take k).filter p = [] := by
            rw [List.filter_eq_nil_iff]
            intro a ha
            simp [hm _ _ hmc a ha]
          rw [hsplit, htake]
          simp
        · simp only [hk, Bool.false_eq_true, if_false]
          rw [ih rest (c :: acc) (by simp only [List.length_cons] at h; omega)]
          simp [List.filter_append, List.filter_cons]
          cases hp : p c <;> simp [hp]

/-- Every character of every piece satisfies `p`, provided the matcher
declines exactly at characters satisfying `p` and never matches emptily. -/
theorem splitByFuel_parts_all (p : Char → Bool)
    (m : List Char → Option Nat)
    (hnone : ∀ c rest, m (c :: rest) = none → p c = true)
    (hpos : ∀ l k, m l = some k → 1 ≤ k) :
    ∀ (fuel : Nat) (s acc : List Char), s.length ≤ fuel →
      (∀ c ∈ acc, p c = true) →
      ∀ part ∈ splitByFuel m fuel s acc, ∀ c ∈ part, p c = true := by
  intro fuel
  induction fuel with
  | zero =>
    intro s acc h hacc part hpart
    have hs : s = [] := List.length_eq_zero.mp (Nat.le_zero.mp h)
    subst hs
    simp only [splitByFuel, List.mem_singleton] at hpart
    subst hpart
    intro c hc
    exact hacc c (List.mem_reverse.mp hc)
  | succ n ih =>
    intro s acc h hacc part hpart
    cases s with
    | nil =>
      simp only [splitByFuel, List.mem_singleton] at hpart
      subst hpart
      intro c hc
      exact hacc c (List.mem_reverse.mp hc)
    | cons c rest =>
      rw [splitByFuel] at hpart
      cases hmc : m (c :: rest) with
      | none =>
        rw [hmc] at hpart
        refine ih rest (c :: acc)
          (by simp only [List.length_cons] at h; omega) ?_ part hpart
        intro x hx
        rcases List.mem_cons.mp hx with rfl | hx
        · exact hnone _ _ hmc
        · exact hacc x hx
      | some k =>
        have hk : 1 ≤ k := hpos _ _ hmc
        rw [hmc] at hpart
        simp only [hk, if_true, List.mem_cons] at hpart
        rcases hpart with rfl | hpart
        · intro c hc
          exact hacc c (List.mem_reverse.mp hc)
        · refine ih _ [] ?_ (by simp) part hpart
          rw [List.length_drop]
          simp only [List.length_cons] at h ⊢
          omega

/-- Zero-width sentence splitting concatenates back to the input exactly. -/
theorem sentSplitAux_flatten (s acc : List Char) :
    (sentSplitAux s acc).flatten = acc.reverse ++ s := by
  induction s generalizing acc with
  | nil => simp [sentSplitAux]
  | cons c rest ih =>
    rw [sentSplitAux]
    by_cases hb : (isSentPunct c && sentLookahead rest) = true
    · simp only [hb, if_true, List.flatten_cons, ih]
      simp
    · simp only [Bool.not_eq_true] at hb
      rw [hb]
      simp only [Bool.false_eq_true, if_false, ih (c :: acc)]
      simp

theorem sentSplit_flatten (s : List Char) : (sentSplit s).flatten = s := by
  simp [sentSplit, sentSplitAux_flatten]

theorem splitBy_flatten_filter (p : Char → Bool)
    (m : List Char → Option Nat)
    (hm : ∀ l k, m l = some k → ∀ c ∈ l.take k, p c = false)
    (s : List Char) :
    ((splitBy m s).flatten).filter p = s.filter p := by
  unfold splitBy
  rw [splitByFuel_flatten_filter p m hm s.length s [] (le_refl _)]
  simp

theorem dropWhile_ws_filter (p : Char → Bool)
    (hp : ∀ c, jsWS c = true → p c = false) (l : List Char) :
    (l.dropWhile jsWS).filter p = l.filter p := by
  induction l with
  | nil => rfl
  | cons c rest ih =>
    rw [List.dropWhile_cons]
    cases hws : jsWS c with
    | false => simp
    | true =>
      rw [if_pos rfl, List.filter_cons]
      simp [hp c hws, ih]

theorem trimL_filter (p : Char → Bool)
    (hp : ∀ c, jsWS c = true → p c = false) (l : List Char) :
    (trimL l).filter p = l.filter p := by
  unfold trimL
  rw [List.filter_reverse, dropWhile_ws_filter p hp, List.filter_reverse,
    dropWhile_ws_filter p hp, List.reverse_reverse]

theorem trimL_sublist (l : List Char) : List.Sublist (trimL l) l := by
  unfold trimL
  have h1 : List.Sublist
      (((l.dropWhile jsWS).reverse.dropWhile jsWS).reverse)
      ((l.dropWhile jsWS).reverse.reverse) :=
    (List.dropWhile_sublist jsWS).reverse
  rw [List.reverse_reverse] at h1
  exact h1.trans (List.dropWhile_sublist jsWS)

theorem trimL_length (l : List Char) : (trimL l).length ≤ l.length :=
  (trimL_sublist l).length_le

theorem trimL_mem {l : List Char} {c : Char} (h : c ∈ trimL l) : c ∈ l :=
  (trimL_sublist l).subset h

theorem keepB_ws {c : Char} (h : jsWS c = true) : keepB c = false := by
  simp [keepB, h]

theorem pushChunk_flatten_filter (p : Char → Bool)
    (hp : ∀ c, jsWS c = true → p c = false)
    (chunks : List (List Char)) (chunk : List Char) :
    ((pushChunk chunks chunk).flatten).filter p
      = (chunks.flatten).filter p ++ chunk.filter p := by
  unfold pushChunk
  cases he : chunk.isEmpty with
  | true =>
    rw [if_pos rfl]
    rw [List.isEmpty_iff.mp he]
    simp
  | false =>
    rw [if_neg (by simp)]
    rw [List.flatten_append, List.filter_append]
    simp [trimL_filter p hp]

theorem spaceAccumLoop_filter (p : Char → Bool)
    (hp : ∀ c, jsWS c = true → p c = false) (L : Nat) :
    ∀ (items : List (List Char)) (st : List (List Char) × List Char),
      (((spaceAccumLoop L items st).1.flatten).filter p)
        ++ ((spaceAccumLoop L items st).2.filter p)
      = ((st.1.flatten).filter p) ++ (st.2.filter p)
        ++ ((items.flatten).filter p) := by
  intro items
  induction items with
  | nil => intro st; simp [spaceAccumLoop]
  | cons w ws ih =>
    intro st
    obtain ⟨chunks, cur⟩ := st
    rw [spaceAccumLoop]
    have hsp : p ' ' = false := hp ' ' (by decide)
    by_cases hcond : L < (cur ++ ' ' :: w).length
    · rw [if_pos hcond, ih]
      rw [pushChunk_flatten_filter p hp]
      simp [List.filter_cons, List.filter_append, hsp]
    · rw [if_neg hcond, ih]
      cases he : cur.isEmpty with
      | true =>
        rw [if_pos rfl]
        rw [List.isEmpty_iff.mp he]
        simp [List.filter_cons, List.filter_append, hsp]
      | false =>
        rw [if_neg (by simp)]
        simp [List.filter_cons, List.filter_append, hsp]

theorem keepB_comma_consumed {l : List Char} {k : Nat}
    (h : mComma l = some k) : ∀ c ∈ l.take k, keepB c = false := by
  intro c hc
  have := mComma_consumed h c hc
  cases hw : jsWS c with
  | true => exact keepB_ws hw
  | false =>
    rw [hw] at this
    simp only [Bool.false_or] at this
    simp [keepB, this]

theorem keepB_wsPlus_consumed {l : List Char} {k : Nat}
    (h : mWsPlus l = some k) : ∀ c ∈ l.take k, keepB c = false :=
  fun c hc => keepB_ws (mWsPlus_consumed h c hc)

theorem commaLoop_filter (L : Nat) :
    ∀ (parts : List (List Char)) (st : List (List Char) × List Char),
      (((commaLoop L parts st).1.flatten).filter keepB)
        ++ ((commaLoop L parts st).2.filter keepB)
      = ((st.1.flatten).filter keepB) ++ (st.2.filter keepB)
        ++ ((parts.flatten).filter keepB) := by
  intro parts
  induction parts with
  | nil => intro st; simp [commaLoop]
  | cons part parts ih =>
    intro st
    obtain ⟨chunks, cur⟩ := st
    rw [commaLoop]
    have hsp : keepB ' ' = false := by decide
    have hcm : keepB ',' = false := by decide
    by_cases hcond : L < (cur ++ ',' :: ' ' :: part).length
    · rw [if_pos hcond]
      by_cases hbig : L < part.length
      · rw [if_pos hbig, ih]
        rw [pushChunk_flatten_filter keepB (fun c h => keepB_ws h)]
        rw [spaceAccumLoop_filter keepB (fun c h => keepB_ws h)]
        rw [pushChunk_flatten_filter keepB (fun c h => keepB_ws h)]
        rw [splitBy_flatten_filter keepB mWsPlus
          (fun l k h => keepB_wsPlus_consumed h)]
        simp [List.filter_append]
      · rw [if_neg hbig, ih]
        rw [pushChunk_flatten_filter keepB (fun c h => keepB_ws h)]
        simp [List.filter_append]
    · rw [if_neg hcond, ih]
      cases he : cur.isEmpty with
      | true =>
        rw [if_pos rfl, List.isEmpty_iff.mp he]
        simp [List.filter_cons, List.filter_append, hsp, hcm]
      | false =>
        rw [if_neg (by simp)]
        simp [List.filter_cons, List.filter_append, hsp, hcm]

theorem splitLongSentence_filter (s : List Char) (L : Nat) :
    ((splitLongSentence s L).flatten).filter keepB = s.filter keepB := by
  unfold splitLongSentence
  rw [pushChunk_flatten_filter keepB (fun c h => keepB_ws h)]
  have h := commaLoop_filter L (splitBy mComma s) ([], [])
  rw [h]
  rw [splitBy_flatten_filter keepB mComma (fun l k hm => keepB_comma_consumed hm)]
  simp

theorem sentenceLoop_filter (L : Nat) :
    ∀ (ss : List (List Char)) (st : List (List Char) × List Char),
      (((sentenceLoop L ss st).1.flatten).filter keepB)
        ++ ((sentenceLoop L ss st).2.filter keepB)
      = ((st.1.flatten).filter keepB) ++ (st.2.filter keepB)
        ++ ((ss.flatten).filter keepB) := by
  intro ss
  induction ss with
  | nil => intro st; simp [sentenceLoop]
  | cons s0 ss ih =>
    intro st
    obtain ⟨chunks, chunk⟩ := st
    rw [sentenceLoop]
    have hsp : keepB ' ' = false := by decide
    have hkw : ∀ c, jsWS c = true → keepB c = false := fun c h => keepB_ws h
    by_cases hbig : L < (trimL s0).length
    · rw [if_pos hbig, ih]
      rw [spaceAccumLoop_filter keepB hkw]
      rw [splitLongSentence_filter]
      rw [trimL_filter keepB hkw]
      simp [List.filter_append]
    · rw [if_neg hbig]
      by_cases hcond : L < (chunk ++ ' ' :: trimL s0).length
      · rw [if_pos hcond, ih]
        rw [pushChunk_flatten_filter keepB hkw]
        rw [trimL_filter keepB hkw]
        simp [List.filter_append]
      · rw [if_neg hcond, ih]
        cases he : chunk.isEmpty with
        | true =>
          rw [if_pos rfl, List.isEmpty_iff.mp he]
          simp [List.filter_cons, List.filter_append, hsp,
            trimL_filter keepB hkw]
        | false =>
          rw [if_neg (by simp)]
          simp [List.filter_cons, List.filter_append, hsp,
            trimL_filter keepB hkw]

theorem paraLoop_filter (L : Nat) :
    ∀ (ps acc : List (List Char)),
      ((paraLoop L ps acc).flatten).filter keepB
        = ((acc.flatten).filter keepB) ++ ((ps.flatten).filter keepB) := by
  intro ps
  induction ps with
  | nil => intro acc; simp [paraLoop]
  | cons para ps ih =>
    intro acc
    rw [paraLoop]
    have hkw : ∀ c, jsWS c = true → keepB c = false := fun c h => keepB_ws h
    by_cases hfit : para.length ≤ L
    · rw [if_pos hfit, ih]
      simp [List.filter_append, trimL_filter keepB hkw]
    · rw [if_neg hfit, ih]
      rw [pushChunk_flatten_filter keepB hkw]
      have h := sentenceLoop_filter L (sentSplit para) (acc, [])
      rw [h, sentSplit_flatten]
      simp [List.filter_append]

theorem splitTextSmart_keep_content (T : List Char) (L : Nat) :
    ((splitTextSmart T L).flatten).filter keepB = T.filter keepB := by
  unfold splitTextSmart
  rw [paraLoop_filter]
  rw [splitBy_flatten_filter keepB mPara
    (fun l k h c hc => keepB_ws (mPara_consumed h c hc))]
  simp

/-- A chunk is within bounds, or is whitespace-free (a single unsplittable
token, which the source emits oversized as an explicit escape hatch). -/
def chunkOK (L : Nat) (c : List Char) : Prop :=
  c.length ≤ L ∨ ∀ ch ∈ c, jsWS ch = false

theorem chunkOK_nil (L : Nat) : chunkOK L [] := Or.inl (by simp)

theorem chunkOK_trimL {L : Nat} {c : List Char} (h : chunkOK L c) :
    chunkOK L (trimL c) := by
  rcases h with h | h
  · exact Or.inl (le_trans (trimL_length c) h)
  · exact Or.inr fun ch hch => h ch (trimL_mem hch)

theorem pushChunk_ok {L : Nat} {chunks : List (List Char)} {cur : List Char}
    (hc : ∀ x ∈ chunks, chunkOK L x) (hcur : chunkOK L cur) :
    ∀ x ∈ pushChunk chunks cur, chunkOK L x := by
  unfold pushChunk
  intro x hx
  cases he : cur.isEmpty with
  | true =>
    rw [he, if_pos rfl] at hx
    exact hc x hx
  | false =>
    rw [he, if_neg (by simp)] at hx
    rcases List.mem_append.mp hx with hx | hx
    · exact hc x hx
    · rw [List.mem_singleton.mp hx]
      exact chunkOK_trimL hcur

/-- Pieces of a `/\s+/` split contain no whitespace. -/
theorem splitBy_wsPlus_noWS (s : List Char) :
    ∀ part ∈ splitBy mWsPlus s, ∀ c ∈ part, jsWS c = false := by
  intro part hpart c hc
  have h := splitByFuel_parts_all (fun c => !jsWS c) mWsPlus
    (fun c rest hn => by simp [mWsPlus_none hn])
    (fun l k hm => mWsPlus_pos hm)
    s.length s [] (le_refl _) (by simp) part hpart c hc
  simpa using h

theorem spaceAccumLoop_ok (L : Nat) :
    ∀ (items : List (List Char)) (st : List (List Char) × List Char),
      (∀ x ∈ items, chunkOK L x) → (∀ x ∈ st.1, chunkOK L x) →
      chunkOK L st.2 →
      (∀ x ∈ (spaceAccumLoop L items st).1, chunkOK L x) ∧
        chunkOK L (spaceAccumLoop L items st).2 := by
  intro items
  induction items with
  | nil => intro st _ h1 h2; exact ⟨h1, h2⟩
  | cons w ws ih =>
    intro st hitems h1 h2
    obtain ⟨chunks, cur⟩ := st
    rw [spaceAccumLoop]
    have hw : chunkOK L w := hitems w (by simp)
    have hws : ∀ x ∈ ws, chunkOK L x := fun x hx => hitems x (by simp [hx])
    by_cases hcond : L < (cur ++ ' ' :: w).length
    · rw [if_pos hcond]
      exact ih _ hws (pushChunk_ok h1 h2) hw
    · rw [if_neg hcond]
      have hlen : (cur ++ ' ' :: w).length ≤ L := by omega
      have hlen2 : cur.length + (1 + w.length) ≤ L := by
        rw [List.length_append, List.length_cons] at hlen
        omega
      cases he : cur.isEmpty with
      | true =>
        rw [if_pos rfl]
        exact ih _ hws h1 (Or.inl (show w.length ≤ L by omega))
      | false =>
        rw [if_neg (by simp)]
        refine ih _ hws h1 (Or.inl ?_)
        show (cur ++ ' ' :: w).length ≤ L
        omega

theorem commaLoop_ok (L : Nat) :
    ∀ (parts : List (List Char)) (st : List (List Char) × List Char),
      (∀ x ∈ st.1, chunkOK L x) → st.2.length ≤ L →
      (∀ x ∈ (commaLoop L parts st).1, chunkOK L x) ∧
        (commaLoop L parts st).2.length ≤ L := by
  intro parts
  induction parts with
  | nil => intro st h1 h2; exact ⟨h1, h2⟩
  | cons part parts ih =>
    intro st h1 h2
    obtain ⟨chunks, cur⟩ := st
    rw [commaLoop]
    by_cases hcond : L < (cur ++ ',' :: ' ' :: part).length
    · rw [if_pos hcond]
      have hchunks1 : ∀ x ∈ pushChunk chunks cur, chunkOK L x :=
        pushChunk_ok h1 (Or.inl h2)
      by_cases hbig : L < part.length
      · rw [if_pos hbig]
        have hst2 := spaceAccumLoop_ok L (splitBy mWsPlus part)
          (pushChunk chunks cur, [])
          (fun x hx => Or.inr (splitBy_wsPlus_noWS part x hx))
          hchunks1 (chunkOK_nil L)
        exact ih _ (pushChunk_ok hst2.1 hst2.2)
          (show ([] : List Char).length ≤ L by simp)
      · rw [if_neg hbig]
        exact ih _ hchunks1 (show part.length ≤ L by omega)
    · rw [if_neg hcond]
      have hlen : (cur ++ ',' :: ' ' :: part).length ≤ L := by omega
      have hlen2 : cur.length + (1 + (1 + part.length)) ≤ L := by
        rw [List.length_append, List.length_cons, List.length_cons] at hlen
        omega
      cases he : cur.isEmpty with
      | true =>
        rw [if_pos rfl]
        exact ih _ h1 (show part.length ≤ L by omega)
      | false =>
        rw [if_neg (by simp)]
        refine ih _ h1 ?_
        show (cur ++ ',' :: ' ' :: part).length ≤ L
        omega

theorem splitLongSentence_ok (s : List Char) (L : Nat) :
    ∀ x ∈ splitLongSentence s L, chunkOK L x := by
  unfold splitLongSentence
  have h := commaLoop_ok L (splitBy mComma s) ([], []) (by simp) (by simp)
  exact pushChunk_ok h.1 (Or.inl h.2)

theorem sentenceLoop_ok (L : Nat) :
    ∀ (ss : List (List Char)) (st : List (List Char) × List Char),
      (∀ x ∈ st.1, chunkOK L x) → chunkOK L st.2 →
      (∀ x ∈ (sentenceLoop L ss st).1, chunkOK L x) ∧
        chunkOK L (sentenceLoop L ss st).2 := by
  intro ss
  induction ss with
  | nil => intro st h1 h2; exact ⟨h1, h2⟩
  | cons s0 ss ih =>
    intro st h1 h2
    obtain ⟨chunks, chunk⟩ := st
    rw [sentenceLoop]
    by_cases hbig : L < (trimL s0).length
    · rw [if_pos hbig]
      have hst := spaceAccumLoop_ok L (splitLongSentence (trimL s0) L)
        (chunks, chunk) (splitLongSentence_ok (trimL s0) L) h1 h2
      exact ih _ hst.1 hst.2
    · rw [if_neg hbig]
      by_cases hcond : L < (chunk ++ ' ' :: trimL s0).length
      · rw [if_pos hcond]
        exact ih _ (pushChunk_ok h1 h2)
          (Or.inl (show (trimL s0).length ≤ L by omega))
      · rw [if_neg hcond]
        have hlen : (chunk ++ ' ' :: trimL s0).length ≤ L := by omega
        have hlen2 : chunk.length + (1 + (trimL s0).length) ≤ L := by
          rw [List.length_append, List.length_cons] at hlen
          omega
        cases he : chunk.isEmpty with
        | true =>
          rw [if_pos rfl]
          exact ih _ h1 (Or.inl (show (trimL s0).length ≤ L by omega))
        | false =>
          rw [if_neg (by simp)]
          refine ih _ h1 (Or.inl ?_)
          show (chunk ++ ' ' :: trimL s0).length ≤ L
          omega

theorem paraLoop_ok (L : Nat) :
    ∀ (ps acc : List (List Char)), (∀ x ∈ acc, chunkOK L x) →
      ∀ x ∈ paraLoop L ps acc, chunkOK L x := by
  intro ps
  induction ps with
  | nil => intro acc h; exact h
  | cons para ps ih =>
    intro acc h
    rw [paraLoop]
    by_cases hfit : para.length ≤ L
    · rw [if_pos hfit]
      refine ih _ ?_
      intro x hx
      rcases List.mem_append.mp hx with hx | hx
      · exact h x hx
      · rw [List.mem_singleton.mp hx]
        exact Or.inl (le_trans (trimL_length para) hfit)
    · rw [if_neg hfit]
      have hst := sentenceLoop_ok L (sentSplit para) (acc, []) h (chunkOK_nil L)
      exact ih _ (pushChunk_ok hst.1 hst.2)

theorem splitTextSmart_ok (T : List Char) (L : Nat) :
    ∀ c ∈ splitTextSmart T L, chunkOK L c := by
  unfold splitTextSmart
  exact paraLoop_ok L (splitBy mPara T) [] (by simp)

end Chunker

namespace WorkerRun

/-!
Operational model of one `generate` run of the first `worker.js` revision
(the per-sentence guarded-wait variant, lines 62-168): the module state is
`bufferQueueSize` (an integer counter), `shouldStop`, and the position of
the handler inside its loops.  Environment messages (`stop`,
`buffer_processed`) may interleave at every `await` point.
-/

/-- `const MAX_QUEUE_SIZE = 6`. -/
def MAX_QUEUE_SIZE : Int := 6

/-- Where the generate handler is inside its loops:
`top` - head of the per-sentence `for` loop;
`wait` - inside `while (bufferQueueSize >= MAX_QUEUE_SIZE && !shouldStop)`;
`attempt` - head of the retry `for` loop (about to check `shouldStop` and
call `generate`); `pending` - awaiting `tts.generate`; `done` - handler
returned. -/
inductive Phase
  | top
  | wait
  | attempt
  | pending
  | done
  deriving DecidableEq

/-- Worker state: `queue` is `bufferQueueSize`, `stopped` is `shouldStop`,
`remaining` counts sentences not yet attempted. -/
structure WState where
  queue : Int
  stopped : Bool
  remaining : Nat
  phase : Phase
  deriving DecidableEq

/-- Transition labels; `startGen` marks the start of an inference call,
`emit` the `bufferQueueSize++` plus `stream_audio_data` post. -/
inductive Label
  | stopMsg
  | ackMsg
  | tau
  | startGen
  | emit
  deriving DecidableEq

/-- One step of the worker run.  `stopMsg`/`ackMsg` are the environment
handlers (`shouldStop = true; bufferQueueSize = 0` and
`bufferQueueSize = Math.max(0, bufferQueueSize - 1)`); the rest mirror the
generate handler's control flow, with `shouldStop` checks exactly where the
source checks them. -/
inductive Step : WState → Label → WState → Prop
  | stopMsg (s : WState) :
      Step s .stopMsg { s with stopped := true, queue := 0 }
  | ackMsg (s : WState) :
      Step s .ackMsg { s with queue := max 0 (s.queue - 1) }
  | loopDone (s : WState) : s.phase = .top → s.remaining = 0 →
      Step s .tau { s with phase := .done }
  | loopStop (s : WState) : s.phase = .top → s.stopped = true →
      Step s .tau { s with phase := .done }
  | enterWait (s : WState) : s.phase = .top → s.stopped = false →
      s.remaining ≠ 0 → Step s .tau { s with phase := .wait }
  | waitStop (s : WState) : s.phase = .wait → s.stopped = true →
      Step s .tau { s with phase := .done }
  | waitExit (s : WState) : s.phase = .wait → s.stopped = false →
      s.queue < MAX_QUEUE_SIZE → Step s .tau { s with phase := .attempt }
  | attemptStop (s : WState) : s.phase = .attempt → s.stopped = true →
      Step s .tau { s with phase := .done }
  | startGen (s : WState) : s.phase = .attempt → s.stopped = false →
      Step s .startGen { s with phase := .pending }
  | genStopped (s : WState) : s.phase = .pending → s.stopped = true →
      Step s .tau { s with phase := .done }
  | genOk (s : WState) : s.phase = .pending → s.stopped = false →
      Step s .emit { s with phase := .top, queue := s.queue + 1,
                            remaining := s.remaining - 1 }
  | genFailRetry (s : WState) : s.phase = .pending → s.stopped = false →
      Step s .tau { s with phase := .attempt }
  | genFailSkip (s : WState) : s.phase = .pending → s.stopped = false →
      Step s .tau { s with phase := .top, remaining := s.remaining - 1 }

/-- Finite runs, collecting the labels. -/
inductive Trace : WState → List Label → WState → Prop
  | nil (s : WState) : Trace s [] s
  | cons {s s1 s2 : WState} {l : Label} {ls : List Label} :
      Step s l s1 → Trace s1 ls s2 → Trace s (l :: ls) s2

/-- Initial state of a generate run: `bufferQueueSize = 0`,
`shouldStop = false` (reset at the top of the handler), `n` sentences. -/
def init (n : Nat) : WState := ⟨0, false, n, .top⟩

/-- Reachable in some run. -/
def Reach (s : WState) : Prop := ∃ n ls, Trace (init n) ls s

/-- The queue invariant: bounded by `MAX_QUEUE_SIZE`, and strictly below
the bound whenever the handler is past its guarded wait. -/
def Inv (s : WState) : Prop :=
  s.queue ≤ MAX_QUEUE_SIZE ∧
    ((s.phase = .attempt ∨ s.phase = .pending) → s.queue < MAX_QUEUE_SIZE)

theorem inv_init (n : Nat) : Inv (init n) := by
  constructor
  · show (0 : Int) ≤ MAX_QUEUE_SIZE
    decide
  · intro h
    rcases h with h | h <;> simp [init] at h

theorem inv_step {s s1 : WState} {l : Label} (hs : Step s l s1)
    (hi : Inv s) : Inv s1 := by
  obtain ⟨h1, h2⟩ := hi
  cases hs with
  | stopMsg =>
    exact ⟨by simp [MAX_QUEUE_SIZE], fun _ => by simp [MAX_QUEUE_SIZE]⟩
  | ackMsg =>
    constructor
    · show max 0 (s.queue - 1) ≤ MAX_QUEUE_SIZE
      have : (0 : Int) ≤ MAX_QUEUE_SIZE := by decide
      omega
    · intro h
      have := h2 h
      show max 0 (s.queue - 1) < MAX_QUEUE_SIZE
      have h0 : (0 : Int) < MAX_QUEUE_SIZE := by decide
      omega
  | loopDone hp hr => exact ⟨h1, by intro h; rcases h with h | h <;> simp at h⟩
  | loopStop hp hst => exact ⟨h1, by intro h; rcases h with h | h <;> simp at h⟩
  | enterWait hp hst hr =>
    exact ⟨h1, by intro h; rcases h with h | h <;> simp at h⟩
  | waitStop hp hst => exact ⟨h1, by intro h; rcases h with h | h <;> simp at h⟩
  | waitExit hp hst hq => exact ⟨h1, fun _ => hq⟩
  | attemptStop hp hst =>
    exact ⟨h1, by intro h; rcases h with h | h <;> simp at h⟩
  | startGen hp hst => exact ⟨h1, fun _ => h2 (Or.inl hp)⟩
  | genStopped hp hst =>
    exact ⟨h1, by intro h; rcases h with h | h <;> simp at h⟩
  | genOk hp hst =>
    have := h2 (Or.inr hp)
    constructor
    · show s.queue + 1 ≤ MAX_QUEUE_SIZE
      omega
    · intro h; rcases h with h | h <;> simp at h
  | genFailRetry hp hst => exact ⟨h1, fun _ => h2 (Or.inr hp)⟩
  | genFailSkip hp hst =>
    exact ⟨h1, by intro h; rcases h with h | h <;> simp at h⟩

theorem inv_trace {s s1 : WState} {ls : List Label} (ht : Trace s ls s1)
    (hi : Inv s) : Inv s1 := by
  induction ht with
  | nil => exact hi
  | cons hs _ ih => exact ih (inv_step hs hi)

/-- Once `shouldStop` is set, no step clears it (within one run). -/
theorem step_stopped_mono {s s1 : WState} {l : Label} (hs : Step s l s1)
    (h : s.stopped = true) : s1.stopped = true := by
  cases hs <;> simp [h]

/-- A `startGen` step can only fire while the stop flag is unset. -/
theorem startGen_not_stopped {s s1 : WState} (hs : Step s .startGen s1) :
    s.stopped = false := by
  cases hs with
  | startGen hp hst => exact hst

theorem no_startGen_after_stopped {s s1 : WState} {ls : List Label}
    (ht : Trace s ls s1) (h : s.stopped = true) : Label.startGen ∉ ls := by
  induction ht with
  | nil => simp
  | cons hs htail ih =>
    rename_i s s2 s3 l ls2
    intro hmem
    rcases List.mem_cons.mp hmem with rfl | hmem
    · rw [startGen_not_stopped hs] at h
      exact Bool.false_ne_true h
    · exact ih (step_stopped_mono hs h) hmem

end WorkerRun

namespace WorkerV3

/-!
The `generate` handler of the third `worker.js` revision (the
`MAX_WAIT_ATTEMPTS` variant): it waits for buffer space at most once per
message - `while (bufferQueueSize >= MAX_QUEUE_SIZE && !shouldStop &&
waitAttempts < MAX_WAIT_ATTEMPTS) sleep(500)` - before the sentence loop,
proceeding anyway on timeout, and then increments `bufferQueueSize` once
per successfully generated sentence with no further bound check.
-/

def MAX_QUEUE_SIZE : Int := 6

def MAX_WAIT_ATTEMPTS : Nat := 60

/-- The single pre-loop wait, in the interleaving in which no
`buffer_processed` message arrives: the sleeps do not change
`bufferQueueSize`, so the loop exits immediately (queue below the bound) or
after `MAX_WAIT_ATTEMPTS` sleeps (timeout), leaving the queue unchanged
either way. -/
def waitAttemptsUsed (queue : Int) : Nat :=
  if queue < MAX_QUEUE_SIZE then 0 else MAX_WAIT_ATTEMPTS

/-- The sentence loop: `bufferQueueSize++` for every sentence whose
generation succeeds (`results` records which `tts.generate` calls produce
audio), with no per-sentence wait. -/
def sentenceLoop : List Bool → Int → Int
  | [], q => q
  | r :: rest, q => sentenceLoop rest (if r then q + 1 else q)

/-- `bufferQueueSize` after one whole generate message handled from queue
level `queue0`, when no acknowledgement arrives meanwhile. -/
def generateRun (queue0 : Int) (results : List Bool) : Int :=
  sentenceLoop results queue0

end WorkerV3

namespace AckCounter

/-!
The `buffer_processed` handler of `worker.js`:
`bufferQueueSize = Math.max(0, bufferQueueSize - 1)`, together with the
producer increment and the stop reset, as a sequence of counter operations.
-/

inductive Op
  | ack
  | submit
  | stopReset
  deriving DecidableEq

/-- Effect of one message on `bufferQueueSize`. -/
def step (q : Int) : Op → Int
  | .ack => max 0 (q - 1)
  | .submit => q + 1
  | .stopReset => 0

def run (ops : List Op) : Int := ops.foldl step 0

theorem step_nonneg {q : Int} (h : 0 ≤ q) (op : Op) : 0 ≤ step q op := by
  cases op <;> (simp [step]; try omega)

theorem foldl_nonneg (ops : List Op) {q : Int} (h : 0 ≤ q) :
    0 ≤ ops.foldl step q := by
  induction ops generalizing q with
  | nil => exact h
  | cons op ops ih => exact ih (step_nonneg h op)

end AckCounter

namespace JobRun

/-!
The chunk loop of the "minimal fix" worker revision: up to 3 generation
attempts per chunk (a "Session" error aborts the chunk's retries),
`processedChunks` counts chunks that produced audio, and the terminal
message is `complete` (with `successfulChunks`/`totalChunks`) when
`processedChunks > 0`, else `error`.
-/

/-- Outcome of one `tts.generate` attempt. -/
inductive AttemptRes
  | ok
  | fail
  | sessionErr
  deriving DecidableEq

/-- The terminal message of a generate job. -/
inductive Outcome
  | complete (successfulChunks totalChunks : Nat)
  | error
  deriving DecidableEq

/-- The retry loop for one chunk: `for (attempt = 1; attempt <= 3 && !success;
attempt++)` - success stops, a session conflict breaks without retrying,
any other failure tries again. -/
def runAttempts : Nat → List AttemptRes → Bool
  | 0, _ => false
  | _ + 1, [] => false
  | n + 1, r :: rest =>
    match r with
    | .ok => true
    | .sessionErr => false
    | .fail => runAttempts n rest

/-- Whether one chunk ends up producing audio (`success` in the source). -/
def chunkSuccess (attempts : List AttemptRes) : Bool := runAttempts 3 attempts

/-- `processedChunks` after the chunk loop. -/
def processedChunks (job : List (List AttemptRes)) : Nat :=
  job.foldl (fun n attempts => if chunkSuccess attempts then n + 1 else n) 0

/-- The terminal message:
`if (processedChunks > 0) postMessage({status:"complete", successfulChunks:
processedChunks, totalChunks: chunks.length}) else postMessage({status:
"error", ...})`. -/
def finalMessage (job : List (List AttemptRes)) : Outcome :=
  if 0 < processedChunks job then
    .complete (processedChunks job) job.length
  else .error

theorem processedChunks_aux (job : List (List AttemptRes)) (n : Nat) :
    job.foldl (fun n attempts => if chunkSuccess attempts then n + 1 else n) n
      = n + processedChunks job := by
  induction job generalizing n with
  | nil => simp [processedChunks]
  | cons a job ih =>
    rw [processedChunks, List.foldl_cons, List.foldl_cons, ih, ih]
    cases chunkSuccess a <;> (simp; try omega)

theorem processedChunks_all_fail {job : List (List AttemptRes)}
    (h : ∀ a ∈ job, chunkSuccess a = false) : processedChunks job = 0 := by
  induction job with
  | nil => rfl
  | cons a job ih =>
    rw [processedChunks, List.foldl_cons, h a (by simp),
      if_neg (by simp), processedChunks_aux]
    rw [ih (fun x hx => h x (by simp [hx]))]

theorem processedChunks_pos {job : List (List AttemptRes)}
    {a : List AttemptRes} (ha : a ∈ job) (h : chunkSuccess a = true) :
    0 < processedChunks job := by
  induction job with
  | nil => simp at ha
  | cons b job ih =>
    rw [processedChunks, List.foldl_cons, processedChunks_aux]
    rcases List.mem_cons.mp ha with rfl | ha
    · rw [h]; simp
    · have := ih ha
      cases chunkSuccess b <;> (simp; try omega)

end JobRun

namespace DiskSaver

/-!
`AudioDiskSaver.js`: the speed remap, the 44-byte WAV header (written by
`writeWavHeader` with placeholder sizes, patched by `updateWavHeader`), and
the running `dataSize` accumulated by `addAudioChunk`.  A `DataView` over
the header buffer is modelled as a byte map `Nat → Nat`.
-/

/-- `getRealSpeed(sliderValue)`: linearly maps the slider range [0.5, 2.0]
to the real speed range [0.75, 1.5] (`0.5 * sliderValue + 0.5`). -/
def getRealSpeed (sliderValue : ℚ) : ℚ := 0.5 * sliderValue + 0.5

/-- JavaScript `Math.round` (round half toward positive infinity). -/
def jsRound (q : ℚ) : ℤ := ⌊q + 1 / 2⌋

/-- ECMAScript `ToUint32` of an integer. -/
def toUint32 (v : ℤ) : ℕ := (v % (4294967296 : ℤ)).toNat

/-- `new ArrayBuffer(44)`: all bytes zero. -/
def emptyBuf : ℕ → ℕ := fun _ => 0

/-- `view.setUint8(off, v)`. -/
def setByte (f : ℕ → ℕ) (off v : ℕ) : ℕ → ℕ :=
  fun n => if n = off then v % 256 else f n

/-- `writeString(view, off, s)`: one `setUint8` per character code. -/
def writeStr : (ℕ → ℕ) → ℕ → List ℕ → (ℕ → ℕ)
  | f, _, [] => f
  | f, off, c :: cs => writeStr (setByte f off c) (off + 1) cs

/-- `view.setUint16(off, v, true)` (little endian). -/
def setUint16LE (f : ℕ → ℕ) (off v : ℕ) : ℕ → ℕ :=
  setByte (setByte f off (v % 256)) (off + 1) (v / 256 % 256)

/-- `view.setUint32(off, v, true)` (little endian). -/
def setUint32LE (f : ℕ → ℕ) (off v : ℕ) : ℕ → ℕ :=
  setByte (setByte (setByte (setByte f off (v % 256))
    (off + 1) (v / 256 % 256)) (off + 2) (v / 65536 % 256))
    (off + 3) (v / 16777216 % 256)

/-- Read back a little-endian 32-bit unsigned integer at `off`. -/
def decodeLE32 (f : ℕ → ℕ) (off : ℕ) : ℕ :=
  f off + 256 * f (off + 1) + 65536 * f (off + 2) + 16777216 * f (off + 3)

/-- Read back a little-endian 16-bit unsigned integer at `off`. -/
def decodeLE16 (f : ℕ → ℕ) (off : ℕ) : ℕ := f off + 256 * f (off + 1)

def SAMPLE_RATE : ℚ := 24000

/-- `writeWavHeader()`: the 44-byte placeholder header, using
`Math.round(SAMPLE_RATE * this.speed)` as the declared sample rate,
format code 3 (IEEE float), 1 channel, 32 bits per sample,
`blockAlign = 1 * 32 / 8 = 4`, byte rate `= sampleRate * blockAlign`,
and zero placeholders for the two size fields. -/
def writeWavHeader (speed : ℚ) : ℕ → ℕ :=
  let esr : ℤ := jsRound (SAMPLE_RATE * speed)
  let blockAlign : ℕ := 1 * 32 / 8
  let ebr : ℤ := esr * (blockAlign : ℤ)
  let b0 := writeStr emptyBuf 0 [82, 73, 70, 70]
  let b1 := setUint32LE b0 4 0
  let b2 := writeStr b1 8 [87, 65, 86, 69]
  let b3 := writeStr b2 12 [102, 109, 116, 32]
  let b4 := setUint32LE b3 16 16
  let b5 := setUint16LE b4 20 3
  let b6 := setUint16LE b5 22 1
  let b7 := setUint32LE b6 24 (toUint32 esr)
  let b8 := setUint32LE b7 28 (toUint32 ebr)
  let b9 := setUint16LE b8 32 blockAlign
  let b10 := setUint16LE b9 34 32
  let b11 := writeStr b10 36 [100, 97, 116, 97]
  setUint32LE b11 40 0

/-- `this.dataSize` after a sequence of `addAudioChunk` calls
(`this.dataSize += audioData.byteLength` per successful write). -/
def totalDataSize (writes : List ℕ) : ℕ :=
  writes.foldl (fun d b => d + b) 0

/-- `updateWavHeader()`: `fileSize = dataSize + 36`, patched at offset 4,
and `dataSize` patched at offset 40, both as little-endian `setUint32`. -/
def updateWavHeader (f : ℕ → ℕ) (dataSize : ℕ) : ℕ → ℕ :=
  let fileSize := dataSize + 36
  setUint32LE (setUint32LE f 4 fileSize) 40 dataSize

/-- Header of the finalized file: placeholder header then the size patch. -/
def finalizedHeader (speed : ℚ) (writes : List ℕ) : ℕ → ℕ :=
  updateWavHeader (writeWavHeader speed) (totalDataSize writes)

/-- The declared sample-rate field (offset 24) always holds the 32-bit
truncation of `Math.round(SAMPLE_RATE * speed)`. -/
theorem decode24_eq (sp : ℚ) :
    decodeLE32 (writeWavHeader sp) 24 = toUint32 (jsRound (SAMPLE_RATE * sp)) := by
  simp only [writeWavHeader, setUint32LE, setUint16LE, setByte, writeStr,
    decodeLE32]
  norm_num
  have h : toUint32 (jsRound (SAMPLE_RATE * sp)) < 4294967296 := by
    unfold toUint32
    omega
  omega

/-- The byte-rate field (offset 28) holds the 32-bit truncation of the
declared sample rate times `blockAlign = 4`. -/
theorem decode28_eq (sp : ℚ) :
    decodeLE32 (writeWavHeader sp) 28
      = toUint32 (jsRound (SAMPLE_RATE * sp) * 4) := by
  simp only [writeWavHeader, setUint32LE, setUint16LE, setByte, writeStr,
    decodeLE32]
  norm_num
  have h : toUint32 (jsRound (SAMPLE_RATE * sp) * 4) < 4294967296 := by
    unfold toUint32
    omega
  omega

theorem jsRound_bounds {s : ℚ} (h1 : 0 < s) (h2 : s ≤ 100) :
    0 ≤ jsRound (SAMPLE_RATE * s) ∧ jsRound (SAMPLE_RATE * s) ≤ 2400000 := by
  unfold jsRound SAMPLE_RATE
  constructor
  · rw [Int.le_floor]
    push_cast
    linarith
  · have h : ⌊(24000 : ℚ) * s + 1 / 2⌋ < 2400001 := by
      rw [Int.floor_lt]
      push_cast
      linarith
    omega

theorem jsRound_ne_24000 {s : ℚ}
    (hne : s < 1 - 1 / 48000 ∨ 1 + 1 / 48000 ≤ s) :
    jsRound (SAMPLE_RATE * s) ≠ 24000 := by
  unfold jsRound SAMPLE_RATE
  rcases hne with h | h
  · have hlt : ⌊(24000 : ℚ) * s + 1 / 2⌋ < 24000 := by
      rw [Int.floor_lt]
      push_cast
      linarith
    omega
  · have hge : (24001 : ℤ) ≤ ⌊(24000 : ℚ) * s + 1 / 2⌋ := by
      rw [Int.le_floor]
      push_cast
      linarith
    omega

end DiskSaver

/-!
## The claims
-/

/-- C1: as stated - "for every interleaving of submit and acknowledge
operations the in-flight count never exceeds MAX_QUEUE_SIZE: the producer
increments the counter only after waiting until it observes
inFlight < MAX_QUEUE_SIZE" - this fails on the `MAX_WAIT_ATTEMPTS` worker
revision, which waits only once per generate message (and proceeds anyway
on timeout) and then increments once per successful sentence with no
further bound check: seven successful sentences from an empty queue drive
`bufferQueueSize` to 7 > 6. -/
theorem c1_counterexample :
    WorkerV3.waitAttemptsUsed 0 = 0 ∧
      WorkerV3.generateRun 0 [true, true, true, true, true, true, true] = 7 ∧
      ¬ WorkerV3.generateRun 0 [true, true, true, true, true, true, true]
          ≤ WorkerV3.MAX_QUEUE_SIZE := by
  refine ⟨by decide, by decide, by decide⟩

/-- C1 (amended): in the per-sentence guarded-wait worker revision
(`worker.js` lines 62-168), where every increment is preceded by a wait
that re-checks `bufferQueueSize < MAX_QUEUE_SIZE` and only acknowledgements
or a stop can interleave before the increment, the counter never exceeds
`MAX_QUEUE_SIZE` in any reachable state. -/
theorem c1_bounded_queue (s : WorkerRun.WState) (h : WorkerRun.Reach s) :
    s.queue ≤ WorkerRun.MAX_QUEUE_SIZE := by
  obtain ⟨n, ls, ht⟩ := h
  exact (WorkerRun.inv_trace ht (WorkerRun.inv_init n)).1

/-- C1 witness: the state reached by wait-exit, generate start, and a
successful emit from a fresh two-sentence run satisfies the bound. -/
theorem c1_bounded_queue_witness :
    (⟨1, false, 1, WorkerRun.Phase.top⟩ : WorkerRun.WState).queue
      ≤ WorkerRun.MAX_QUEUE_SIZE := by
  apply c1_bounded_queue
  refine ⟨2, [WorkerRun.Label.tau, WorkerRun.Label.tau,
    WorkerRun.Label.startGen, WorkerRun.Label.emit], ?_⟩
  refine WorkerRun.Trace.cons (WorkerRun.Step.enterWait _ rfl rfl (by decide)) ?_
  refine WorkerRun.Trace.cons (WorkerRun.Step.waitExit _ rfl rfl (by decide)) ?_
  refine WorkerRun.Trace.cons (WorkerRun.Step.startGen _ rfl rfl) ?_
  exact WorkerRun.Trace.cons (WorkerRun.Step.genOk _ rfl rfl)
    (WorkerRun.Trace.nil _)

/-- C2: as stated - "concatenating the chunks, ignoring differences in
whitespace only, reproduces T" - this fails: `splitLongSentence` splits on
`/,\s*/` and does not always re-insert the comma, so the non-whitespace
character `,` of `"a, b"` is dropped at `maxLen = 1`. -/
theorem c2_counterexample :
    ((Chunker.splitTextSmart ['a', ',', ' ', 'b'] 1).flatten).filter
        (fun c => !Chunker.jsWS c)
      ≠ (['a', ',', ' ', 'b'] : List Char).filter (fun c => !Chunker.jsWS c) := by
  decide

/-- C2 (amended): for every input text and every maxLen, concatenating the
chunks of `splitTextSmart` reproduces the input up to whitespace AND
commas: no character other than whitespace and commas is dropped,
duplicated, or reordered. -/
theorem c2_content_preserved (T : List Char) (L : Nat) :
    ((Chunker.splitTextSmart T L).flatten).filter Chunker.keepB
      = T.filter Chunker.keepB :=
  Chunker.splitTextSmart_keep_content T L

/-- C3: every chunk returned by `splitTextSmart` has length at most the
limit, except chunks that are whitespace-free (a single unsplittable token
longer than the limit, the source's explicit escape hatch). -/
theorem c3_chunk_bound (T : List Char) (L : Nat) (_hL : 0 < L) :
    ∀ c ∈ Chunker.splitTextSmart T L,
      c.length ≤ L ∨ c.all (fun ch => !Chunker.jsWS ch) = true := by
  intro c hc
  rcases Chunker.splitTextSmart_ok T L c hc with h | h
  · exact Or.inl h
  · refine Or.inr ?_
    rw [List.all_eq_true]
    intro ch hch
    simp [h ch hch]

/-- C3 witness: at `maxLen = 2` the text `"ab cd"` splits into `["ab","cd"]`
and the chunk `"ab"` is within the bound. -/
theorem c3_chunk_bound_witness :
    (['a', 'b'] : List Char).length ≤ 2 ∨
      (['a', 'b'] : List Char).all (fun ch => !Chunker.jsWS ch) = true :=
  c3_chunk_bound ['a', 'b', ' ', 'c', 'd'] 2 (by decide) ['a', 'b'] (by decide)

/-- C4: in the minimal-fix worker's chunk loop, a job in which every
chunk's attempts fail ends with the `error` terminal message (never
`complete`), and a job with at least one successful chunk ends with
`complete` carrying `successfulChunks = processedChunks` and
`totalChunks = chunks.length`, with `processedChunks > 0`. -/
theorem c4_terminal_status (job : List (List JobRun.AttemptRes)) :
    ((∀ a ∈ job, JobRun.chunkSuccess a = false) →
        JobRun.finalMessage job = JobRun.Outcome.error) ∧
      ((∃ a ∈ job, JobRun.chunkSuccess a = true) →
        JobRun.finalMessage job
            = JobRun.Outcome.complete (JobRun.processedChunks job) job.length ∧
          0 < JobRun.processedChunks job) := by
  constructor
  · intro h
    unfold JobRun.finalMessage
    rw [JobRun.processedChunks_all_fail h]
    simp
  · rintro ⟨a, ha, hs⟩
    have hp := JobRun.processedChunks_pos ha hs
    unfold JobRun.finalMessage
    rw [if_pos hp]
    exact ⟨rfl, hp⟩

/-- C4 witness: a two-chunk job whose first chunk succeeds on the second
attempt and whose second chunk dies on a session conflict ends `complete`
with a positive success count. -/
theorem c4_terminal_status_witness :
    JobRun.finalMessage
        [[JobRun.AttemptRes.fail, JobRun.AttemptRes.ok],
          [JobRun.AttemptRes.sessionErr]]
      = JobRun.Outcome.complete
          (JobRun.processedChunks
            [[JobRun.AttemptRes.fail, JobRun.AttemptRes.ok],
              [JobRun.AttemptRes.sessionErr]])
          ([[JobRun.AttemptRes.fail, JobRun.AttemptRes.ok],
              [JobRun.AttemptRes.sessionErr]] :
            List (List JobRun.AttemptRes)).length ∧
      0 < JobRun.processedChunks
        [[JobRun.AttemptRes.fail, JobRun.AttemptRes.ok],
          [JobRun.AttemptRes.sessionErr]] :=
  (c4_terminal_status _).2
    ⟨[JobRun.AttemptRes.fail, JobRun.AttemptRes.ok], by decide, by decide⟩

/-- C5: in a worker generate run, the moment the stop command is processed
the queue counter is reset to 0 and the stop flag is set, and no
`tts.generate` call is started at any later point of the run. -/
theorem c5_stop_halts (m m1 s1 : WorkerRun.WState)
    (ls : List WorkerRun.Label)
    (hstop : WorkerRun.Step m WorkerRun.Label.stopMsg m1)
    (ht : WorkerRun.Trace m1 ls s1) :
    m1.queue = 0 ∧ m1.stopped = true ∧ WorkerRun.Label.startGen ∉ ls := by
  cases hstop with
  | stopMsg => exact ⟨rfl, rfl, WorkerRun.no_startGen_after_stopped ht rfl⟩

/-- C5 witness: a stop received while a generate call is pending resets the
queue from 3 to 0, and the only remaining step discards the pending result
without starting another call. -/
theorem c5_stop_halts_witness :
    (⟨0, true, 2, WorkerRun.Phase.pending⟩ : WorkerRun.WState).queue = 0 ∧
      (⟨0, true, 2, WorkerRun.Phase.pending⟩ : WorkerRun.WState).stopped = true ∧
      WorkerRun.Label.startGen ∉ [WorkerRun.Label.tau] :=
  c5_stop_halts ⟨3, false, 2, WorkerRun.Phase.pending⟩
    ⟨0, true, 2, WorkerRun.Phase.pending⟩
    ⟨0, true, 2, WorkerRun.Phase.done⟩ [WorkerRun.Label.tau]
    (WorkerRun.Step.stopMsg _)
    (WorkerRun.Trace.cons (WorkerRun.Step.genStopped _ rfl rfl)
      (WorkerRun.Trace.nil _))

/-- C6: as stated - "the header contains dataSize = B ... as little-endian
32-bit unsigned integers" for EVERY total B - this fails for B not
representable in 32 bits: a single write of 2^32 bytes leaves 0 in the
dataSize field, because `setUint32` truncates. -/
theorem c6_counterexample :
    DiskSaver.totalDataSize [4294967296] = 4294967296 ∧
      DiskSaver.decodeLE32 (DiskSaver.finalizedHeader 1 [4294967296]) 40
        ≠ 4294967296 := by
  refine ⟨by decide, by decide⟩

/-- C6 (amended): for every sequence of writes totalling B bytes with
B + 36 < 2^32, the finalized header holds dataSize = B at byte offset 40
and fileSize = B + 36 at byte offset 4, both little-endian 32-bit. -/
theorem c6_header_sizes (speed : ℚ) (writes : List ℕ)
    (h : DiskSaver.totalDataSize writes + 36 < 4294967296) :
    DiskSaver.decodeLE32 (DiskSaver.finalizedHeader speed writes) 40
        = DiskSaver.totalDataSize writes ∧
      DiskSaver.decodeLE32 (DiskSaver.finalizedHeader speed writes) 4
        = DiskSaver.totalDataSize writes + 36 := by
  constructor <;>
  · simp only [DiskSaver.finalizedHeader, DiskSaver.updateWavHeader,
      DiskSaver.setUint32LE, DiskSaver.setByte, DiskSaver.decodeLE32]
    norm_num
    omega

/-- C6 witness: two writes of 100 and 200 bytes give dataSize 300 and
fileSize 336. -/
theorem c6_header_sizes_witness :
    DiskSaver.totalDataSize [100, 200] + 36 < 4294967296 ∧
      (DiskSaver.decodeLE32 (DiskSaver.finalizedHeader 1 [100, 200]) 40
          = DiskSaver.totalDataSize [100, 200] ∧
        DiskSaver.decodeLE32 (DiskSaver.finalizedHeader 1 [100, 200]) 4
          = DiskSaver.totalDataSize [100, 200] + 36) :=
  ⟨by decide, c6_header_sizes 1 [100, 200] (by decide)⟩

/-- C7: as stated - "for the empty input string splitTextSmart returns an
empty sequence (zero chunks)" - this fails: JavaScript `"".split(regex)`
yields `[""]`, the empty paragraph passes the `length <= maxLen` test and
is pushed trimmed, so the result is one empty chunk, not zero chunks. -/
theorem c7_counterexample :
    Chunker.splitTextSmart [] 1 = [[]] ∧ Chunker.splitTextSmart [] 1 ≠ [] := by
  refine ⟨by decide, by decide⟩

/-- C7 (amended): for the empty input and every maxLen, `splitTextSmart`
returns exactly one chunk, the empty string. -/
theorem c7_empty_input (L : Nat) : Chunker.splitTextSmart [] L = [[]] := by
  simp [Chunker.splitTextSmart, Chunker.splitBy, Chunker.splitByFuel,
    Chunker.paraLoop, Chunker.trimL, Chunker.pushChunk]

/-- C8: the speed remap satisfies remap(0.5) = 0.75, remap(2.0) = 1.5,
remap(1.0) = 1.0, and is the linear interpolation between the endpoints
(0.5, 0.75) and (2.0, 1.5). -/
theorem c8_speed_remap :
    DiskSaver.getRealSpeed 0.5 = 0.75 ∧ DiskSaver.getRealSpeed 2.0 = 1.5 ∧
      DiskSaver.getRealSpeed 1.0 = 1.0 ∧
      ∀ x : ℚ, DiskSaver.getRealSpeed x
        = 0.75 + (x - 0.5) * ((1.5 - 0.75) / (2.0 - 0.5)) := by
  refine ⟨by norm_num [DiskSaver.getRealSpeed],
    by norm_num [DiskSaver.getRealSpeed],
    by norm_num [DiskSaver.getRealSpeed], fun x => ?_⟩
  unfold DiskSaver.getRealSpeed
  norm_num
  ring

/-- C9: the `buffer_processed` handler sets the counter to
`Math.max(0, bufferQueueSize - 1)`, and under every sequence of
acknowledge, submit, and stop operations (including spurious or duplicate
acknowledgements) the counter never becomes negative. -/
theorem c9_counter_nonneg :
    (∀ q : Int, AckCounter.step q AckCounter.Op.ack = max 0 (q - 1)) ∧
      ∀ ops : List AckCounter.Op, 0 ≤ AckCounter.run ops :=
  ⟨fun _ => rfl, fun ops => AckCounter.foldl_nonneg ops le_rfl⟩

/-- C10: as stated - "for any s ≠ 1 the header's sample rate differs from
the fixed 24 kHz generation rate" - this fails: for the captured speed
`getRealSpeed(1 + 1/48000) = 1 + 1/96000 ≠ 1`, `Math.round(24000 * s)`
still rounds to exactly 24000. -/
theorem c10_counterexample :
    DiskSaver.getRealSpeed (1 + 1 / 48000) ≠ 1 ∧
      DiskSaver.decodeLE32
          (DiskSaver.writeWavHeader (DiskSaver.getRealSpeed (1 + 1 / 48000)))
          24
        = 24000 := by
  constructor
  · norm_num [DiskSaver.getRealSpeed]
  · rw [DiskSaver.decode24_eq]
    have hj : DiskSaver.jsRound
        (DiskSaver.SAMPLE_RATE * DiskSaver.getRealSpeed (1 + 1 / 48000))
        = 24000 := by
      unfold DiskSaver.jsRound DiskSaver.SAMPLE_RATE DiskSaver.getRealSpeed
      rw [Int.floor_eq_iff]
      push_cast
      constructor <;> norm_num
    rw [hj]
    decide

/-- C10 (amended): for every captured speed s with 0 < s ≤ 100, the header
declares sample rate round(24000 * s) at offset 24 and byte rate
round(24000 * s) * 4 at offset 28, with format code 3 at offset 20, one
channel at offset 22, and 32 bits per sample at offset 34; and the declared
sample rate differs from the 24 kHz generation rate whenever s is at least
1/48000 away from 1 (as the counterexample forces: closer speeds round back
to 24000). -/
theorem c10_header_fields (s : ℚ) (h1 : 0 < s) (h2 : s ≤ 100) :
    DiskSaver.decodeLE16 (DiskSaver.writeWavHeader s) 20 = 3 ∧
      DiskSaver.decodeLE16 (DiskSaver.writeWavHeader s) 22 = 1 ∧
      DiskSaver.decodeLE16 (DiskSaver.writeWavHeader s) 34 = 32 ∧
      (DiskSaver.decodeLE32 (DiskSaver.writeWavHeader s) 24 : ℤ)
        = DiskSaver.jsRound (24000 * s) ∧
      (DiskSaver.decodeLE32 (DiskSaver.writeWavHeader s) 28 : ℤ)
        = DiskSaver.jsRound (24000 * s) * 4 ∧
      ((s < 1 - 1 / 48000 ∨ 1 + 1 / 48000 ≤ s) →
        DiskSaver.decodeLE32 (DiskSaver.writeWavHeader s) 24 ≠ 24000) := by
  have hsr : DiskSaver.SAMPLE_RATE * s = 24000 * s := by
    unfold DiskSaver.SAMPLE_RATE
    ring
  obtain ⟨hlo, hhi⟩ := DiskSaver.jsRound_bounds h1 h2
  rw [hsr] at hlo hhi
  refine ⟨?_, ?_, ?_, ?_, ?_, ?_⟩
  · simp only [DiskSaver.writeWavHeader, DiskSaver.setUint32LE,
      DiskSaver.setUint16LE, DiskSaver.setByte, DiskSaver.writeStr,
      DiskSaver.decodeLE16]
    norm_num
  · simp only [DiskSaver.writeWavHeader, DiskSaver.setUint32LE,
      DiskSaver.setUint16LE, DiskSaver.setByte, DiskSaver.writeStr,
      DiskSaver.decodeLE16]
    norm_num
  · simp only [DiskSaver.writeWavHeader, DiskSaver.setUint32LE,
      DiskSaver.setUint16LE, DiskSaver.setByte, DiskSaver.writeStr,
      DiskSaver.decodeLE16]
    norm_num
  · rw [DiskSaver.decode24_eq, hsr]
    unfold DiskSaver.toUint32
    omega
  · rw [DiskSaver.decode28_eq, hsr]
    unfold DiskSaver.toUint32
    omega
  · intro hne
    rw [DiskSaver.decode24_eq, hsr]
    have hne2 := DiskSaver.jsRound_ne_24000 hne
    rw [hsr] at hne2
    unfold DiskSaver.toUint32
    omega

/-- C10 witness: at captured speed 1/2 the declared sample rate is not the
24 kHz generation rate. -/
theorem c10_header_fields_witness :
    DiskSaver.decodeLE32 (DiskSaver.writeWavHeader (1 / 2)) 24 ≠ 24000 :=
  (c10_header_fields (1 / 2) (by norm_num) (by norm_num)).2.2.2.2.2
    (by norm_num)
